import Mathlib

/-!
Verification development for `profit_bot.py`, a chat bot that records sale
lines, keeps a product cost base, and produces profit reports.

The Python source is shallowly embedded below:

* machine floats are modelled as exact rationals (`ℚ`); the claims about
  arithmetic are stated "under exact arithmetic";
* the regular expression `^([\d.]+)\s+(?:(\d+)\s+)?(.+#)$` used by
  `parse_entry` is embedded as an explicit leftmost-greedy matcher with
  the same backtracking behaviour (`matchEntry`);
* character classes `\d` / `\s` are taken as ASCII digits / ASCII
  whitespace: the grammar and all data exercised by the program use only
  those (Python's Unicode-aware classes coincide with them there);
* the JSON stores (product base, exchange rate, report snapshot) become
  fields of an explicit state `St`; the Telegram transport is out of
  scope, each handler becomes a pure state-transition function.
-/

namespace ProfitBot

/-- Whitespace characters stripped by Python `str.strip()` and matched by
the regex class `\s` (ASCII subset, see the module comment). -/
def isSpace (c : Char) : Bool :=
  c == ' ' || c == '\t' || c == '\n' || c == '\r' || c == '\x0b' || c == '\x0c'

/-- Characters matched by the regex class `[\d.]` in the revenue position
of `parse_entry`: ASCII digits and the dot. -/
def isNumChar (c : Char) : Bool := c.isDigit || c == '.'

/-- Python `str.strip()` on a list of characters: drop leading and
trailing whitespace. -/
def pyStripL (cs : List Char) : List Char :=
  ((cs.dropWhile isSpace).reverse.dropWhile isSpace).reverse

/-- Value of an ASCII digit string, as Python `int` computes it
(leading zeros allowed). -/
def natOfDigits (cs : List Char) : ℕ :=
  cs.foldl (fun a c => 10 * a + (c.toNat - 48)) 0

/-- Exponent tail of a Python float literal, after the `e`/`E`: optional
sign, then one or more digits reaching the end of the string. -/
def parseExpTail (cs : List Char) : Option ℤ :=
  match cs with
  | [] => none
  | c :: r =>
    if c = '+' then
      (if r ≠ [] ∧ r.all Char.isDigit then some (natOfDigits r : ℤ) else none)
    else if c = '-' then
      (if r ≠ [] ∧ r.all Char.isDigit then some (-(natOfDigits r : ℤ)) else none)
    else
      (if (c :: r).all Char.isDigit then some (natOfDigits (c :: r) : ℤ) else none)

/-- Optional exponent part of a Python float literal: either nothing
remains, or `e`/`E` followed by a signed integer. -/
def parseExp (cs : List Char) : Option ℤ :=
  match cs with
  | [] => some 0
  | c :: r => if c = 'e' ∨ c = 'E' then parseExpTail r else none

/-- The unsigned part of a Python float literal: digits with an optional
dot (at least one digit overall in the mantissa), then an optional
exponent part; the exact rational value on acceptance. -/
def floatMantissaExp (sign : ℚ) (t1 : List Char) : Option ℚ :=
  let ip := t1.takeWhile Char.isDigit
  let r1 := t1.dropWhile Char.isDigit
  match r1 with
  | '.' :: r2 =>
    let fp := r2.takeWhile Char.isDigit
    let r3 := r2.dropWhile Char.isDigit
    if ip = [] ∧ fp = [] then none
    else (parseExp r3).map fun ex =>
      sign * ((natOfDigits ip : ℚ) + (natOfDigits fp : ℚ) / 10 ^ fp.length) * (10 : ℚ) ^ ex
  | r1' =>
    if ip = [] then none
    else (parseExp r1').map fun ex => sign * (natOfDigits ip : ℚ) * (10 : ℚ) ^ ex

/-- Python's `float()` on a string, returning the exact rational value of
the accepted decimal literal, or `none` where Python raises `ValueError`.
Grammar: strip whitespace, optional sign, digits with an optional dot
(at least one digit in the mantissa), optional exponent.  Python
additionally accepts `inf`/`infinity`/`nan` (not representable in `ℚ`)
and underscores between digits; neither shape can reach the call sites
embedded here with a different control-flow outcome: `parse_entry` feeds
`float` only strings over `[0-9.]`, and the product-price branch feeds
it only strings ending in `'#'`, which every `float` grammar rejects. -/
def pyFloatL (cs : List Char) : Option ℚ :=
  match pyStripL cs with
  | '+' :: r => floatMantissaExp 1 r
  | '-' :: r => floatMantissaExp (-1) r
  | t => floatMantissaExp 1 t

/-- Prepend a character to the first piece of a split (the split is never
empty, so the `[]` case is unreachable). -/
def consHead (c : Char) : List (List Char) → List (List Char)
  | [] => [[c]]
  | g :: gs => (c :: g) :: gs

/-- Python `text.split(sep)` for a single-character separator: keeps empty
pieces, `splitCh c [] = [[]]`. -/
def splitCh (sep : Char) : List Char → List (List Char)
  | [] => [[]]
  | c :: rest =>
    if c = sep then [] :: splitCh sep rest else consHead c (splitCh sep rest)

/-- The sub-pattern `.+#` anchored at the end of the input: the candidate
`r` matches when it ends in `'#'`, has at least one character before it,
and the part matched by `.+` contains no newline (`.` does not match
`'\n'`). Returns the matched text (= capture group 3). -/
def matchDC (r : List Char) : Option (List Char) :=
  if 2 ≤ r.length ∧ r.getLast? = some '#' ∧ ∀ c ∈ r.dropLast, c ≠ '\n' then some r else none

/-- Backtracking of a greedy `\s+` that precedes `.+#`: the engine first
tries the shortest candidate `after` (i.e. `\s+` maximal), then returns
whitespace characters from `extras` (the tail of the whitespace run,
nearest first) into the `.+` part, one at a time. -/
def tryShift : List Char → List Char → Option (List Char)
  | [], after => matchDC after
  | e :: es, after =>
    match matchDC after with
    | some r => some r
    | none => tryShift es (e :: after)

/-- The leftmost-greedy match of `^([\d.]+)\s+(?:(\d+)\s+)?(.+#)$` against
an already-stripped string, returning the three capture groups (group 2
optional) exactly as CPython's backtracking engine assigns them.

Derivation of the control structure from the regex, used throughout:
`[\d.]+` and `\s+` have disjoint character classes, so only their maximal
runs can take part in a match (shortening one makes its successor start
on a character outside its class) — except that shortening the `\s+` run
feeds whitespace into `.+` (which matches whitespace), handled by
`tryShift`.  The optional group `(\d+)\s+`, being greedy, is tried first;
inside it `\d+` must again be the maximal digit run, and its trailing
`\s+` backtracks via `tryShift`.  If the optional group fails entirely,
the engine retries with the group absent, first at the maximal outer
`\s+`, then shortening it.  `$` is plain end-of-input because the input
is stripped (so it cannot end in a newline). -/
def matchEntry (cs : List Char) : Option (List Char × Option (List Char) × List Char) :=
  let a := cs.takeWhile isNumChar
  let r1 := cs.dropWhile isNumChar
  if a = [] then none else
  let b := r1.takeWhile isSpace
  let r2 := r1.dropWhile isSpace
  if b = [] then none else
  let qtyRes : Option (List Char × List Char) :=
    let d := r2.takeWhile Char.isDigit
    let r3 := r2.dropWhile Char.isDigit
    if d = [] then none else
    let s := r3.takeWhile isSpace
    let r4 := r3.dropWhile isSpace
    if s = [] then none else
    (tryShift (s.drop 1).reverse r4).map fun g3 => (d, g3)
  match qtyRes with
  | some (d, g3) => some (a, some d, g3)
  | none => (tryShift (b.drop 1).reverse r2).map fun g3 => (a, none, g3)

/-- `int(match.group(2)) if match.group(2) else 1` — the quantity is the
integer value of the optional second capture group, defaulting to 1. -/
def qtyVal : Option (List Char) → ℕ
  | none => 1
  | some d => natOfDigits d

/-- Embedding of `parse_entry` (profit_bot.py:53-76): strip the text,
reject the empty string, match the regex, convert group 1 with `float`
(the `try` catches its `ValueError`; `int` on the all-digit group 2
cannot fail), strip group 3 for the model.  Returns
`(revenue, quantity, model)` or `none`. -/
def parse_entry (text : String) : Option (ℚ × ℕ × String) :=
  let t := pyStripL text.data
  if t = [] then none else
  match matchEntry t with
  | none => none
  | some (g1, g2, g3) =>
    match pyFloatL g1 with
    | none => none
    | some rev => some (rev, qtyVal g2, ⟨pyStripL g3⟩)

/-- One recorded sale, exactly the tuple `(revenue, quantity, model)`
appended to `context.user_data['entries']` (profit_bot.py:310). -/
abbrev Entry := ℚ × ℕ × String

def eRev (e : Entry) : ℚ := e.1

def eQty (e : Entry) : ℕ := e.2.1

def eModel (e : Entry) : String := e.2.2

/-- The product base `base.json`: a Python dict from model to unit cost,
embedded as an association list with at most one binding per key. -/
abbrev Base := List (String × ℚ)

/-- Dict lookup `base[model]` / membership `model in base`. -/
def baseGet : Base → String → Option ℚ
  | [], _ => none
  | (k, v) :: rest, m => if k = m then some v else baseGet rest m

/-- Dict assignment `base[model] = price`: overwrite in place or append. -/
def baseSet : Base → String → ℚ → Base
  | [], m, v => [(m, v)]
  | (k, w) :: rest, m, v => if k = m then (m, v) :: rest else (k, w) :: baseSet rest m v

/-- `(profit / revenue * 100) if revenue > 0 else 0`
(profit_bot.py:184,213,228,233,317): margin with the zero-revenue guard. -/
def marginPct (profit revenue : ℚ) : ℚ :=
  if 0 < revenue then profit / revenue * 100 else 0

/-- One row of Table 1, as built in the loop of `cmd_end_report`
(profit_bot.py:180-194). -/
structure DetailRow where
  model : String
  quantity : ℕ
  revenue : ℚ
  cost_usd : ℚ
  cost_som : ℚ
  profit : ℚ
  margin : ℚ
deriving DecidableEq

/-- The per-line computation of `cmd_end_report` (profit_bot.py:181-194):
`cost_usd = base[model]`, `cost_som = cost_usd * rate * quantity`,
`profit = revenue - cost_som`, guarded margin.  The `getD 0` default is
never consulted in a finalized report: finalization is guarded by the
missing-models check, so `baseGet` succeeds there. -/
def detailOf (b : Base) (rate : ℚ) (e : Entry) : DetailRow :=
  let cu := (baseGet b (eModel e)).getD 0
  let cs := cu * rate * (eQty e : ℚ)
  let pr := eRev e - cs
  { model := eModel e, quantity := eQty e, revenue := eRev e,
    cost_usd := cu, cost_som := cs, profit := pr, margin := marginPct pr (eRev e) }

/-- `total_revenue += revenue` accumulated over the entries loop
(profit_bot.py:176,200). -/
def totalRevenue (es : List Entry) : ℚ :=
  es.foldl (fun a e => a + eRev e) 0

/-- `total_cost_som += cost_som` (profit_bot.py:177,201). -/
def totalCostSom (es : List Entry) (b : Base) (rate : ℚ) : ℚ :=
  es.foldl (fun a e => a + (detailOf b rate e).cost_som) 0

/-- `total_profit += profit` (profit_bot.py:178,202). -/
def totalProfit (es : List Entry) (b : Base) (rate : ℚ) : ℚ :=
  es.foldl (fun a e => a + (detailOf b rate e).profit) 0

/-- `sum(e[1] for e in entries)` — the quantity trailer (profit_bot.py:215). -/
def totalQty (es : List Entry) : ℕ :=
  es.foldl (fun a e => a + eQty e) 0

/-- `model_summary[m]['quantity']` after the loop (profit_bot.py:196). -/
def sumQty (es : List Entry) (m : String) : ℕ :=
  es.foldl (fun a e => if eModel e = m then a + eQty e else a) 0

/-- `model_summary[m]['revenue']` after the loop (profit_bot.py:197). -/
def sumRev (es : List Entry) (m : String) : ℚ :=
  es.foldl (fun a e => if eModel e = m then a + eRev e else a) 0

/-- `model_summary[m]['cost_usd']` after the loop (profit_bot.py:198):
the per-model cost accumulates in the source currency,
`cost_usd * quantity` per entry. -/
def sumCostUsd (es : List Entry) (b : Base) (m : String) : ℚ :=
  es.foldl
    (fun a e =>
      if eModel e = m then a + (baseGet b (eModel e)).getD 0 * (eQty e : ℚ) else a) 0

/-- The keys of `model_summary` in insertion order (a Python dict keeps
first-insertion order): the distinct models in order of first occurrence. -/
def distinctModels (es : List Entry) : List String :=
  es.foldl (fun acc e => if eModel e ∈ acc then acc else acc ++ [eModel e]) []

/-- `sorted(model_summary.keys())` (profit_bot.py:224): the distinct
models sorted lexicographically by code point, as Python `sorted` on
`str` (Lean's `≤` on `String` is the same code-point order). -/
def sortedModels (es : List Entry) : List String :=
  List.insertionSort (· ≤ ·) (distinctModels es)

/-- One row of Table 2 (profit_bot.py:224-230). -/
structure SummaryRow where
  model : String
  quantity : ℕ
  revenue : ℚ
  cost_som : ℚ
  profit : ℚ
  margin : ℚ
deriving DecidableEq

/-- The per-model row computation (profit_bot.py:225-230): the
source-currency accumulation `cost_usd` is converted once, at the end,
with the report's single rate: `cost_som = summary['cost_usd'] * rate`. -/
def summaryRowOf (es : List Entry) (b : Base) (rate : ℚ) (m : String) : SummaryRow :=
  let cs := sumCostUsd es b m * rate
  let pr := sumRev es m - cs
  { model := m, quantity := sumQty es m, revenue := sumRev es m,
    cost_som := cs, profit := pr, margin := marginPct pr (sumRev es m) }

/-- The finalized report: both tables and the grand totals, i.e. the data
rendered by `cmd_end_report` and persisted to `current_report.json`
(profit_bot.py:204-260). -/
structure Report where
  details : List DetailRow
  summaryRows : List SummaryRow
  total_quantity : ℕ
  total_revenue : ℚ
  total_cost_som : ℚ
  total_profit : ℚ
  total_margin : ℚ
deriving DecidableEq

/-- The whole report computation of `cmd_end_report` after validation
(profit_bot.py:172-260). -/
def buildReport (es : List Entry) (b : Base) (rate : ℚ) : Report :=
  { details := es.map (detailOf b rate)
    summaryRows := (sortedModels es).map (summaryRowOf es b rate)
    total_quantity := totalQty es
    total_revenue := totalRevenue es
    total_cost_som := totalCostSom es b rate
    total_profit := totalProfit es b rate
    total_margin := marginPct (totalProfit es b rate) (totalRevenue es) }

/-- The validation loop of `cmd_end_report` (profit_bot.py:163-166):
`missing_models = set(); for ... : if model not in base: add(model)`.
A CPython set has no specified iteration order (it is hash- and
seed-dependent), so only the membership and distinctness of this list are
meaningful; first-occurrence order is used as the canonical
representative.  The code applies no sort before joining the set into
the error message. -/
def missingModels (es : List Entry) (b : Base) : List String :=
  es.foldl
    (fun acc e =>
      if baseGet b (eModel e) = none then
        (if eModel e ∈ acc then acc else acc ++ [eModel e])
      else acc) []

/-- A possible iteration order of a CPython set with the given elements:
any duplicate-free enumeration of exactly those elements.  The order the
interpreter actually produces depends on string hashes, which are
randomized per process. -/
def validSetEnum (l s : List String) : Prop :=
  l.Nodup ∧ ∀ m, m ∈ l ↔ m ∈ s

/-- The per-user session plus the persisted stores, as one state:
`report_active` / `entries` from `context.user_data`, the product base
(`base.json`), the exchange rate (`exchange_rate.json`), and the report
snapshot slot (`current_report.json`). -/
structure St where
  active : Bool
  entries : List Entry
  base : Base
  rate : ℚ
  snapshot : Option Report
deriving DecidableEq

/-- Observable outcome of `handle_message` (which reply it sends). -/
inductive MsgOutcome
  | notActive
  | productAdded (model : String) (price : ℚ)
  | parseError
  | modelNotFound (model : String)
  | entryAdded (revenue : ℚ) (quantity : ℕ) (model : String)
deriving DecidableEq

/-- The product-definition branch of `handle_message`
(profit_bot.py:278-292): guarded by `':' in text and text.endswith('#')`;
split on `':'`; only a two-part split is considered; the model is
`parts[0].strip()` and the price `float(parts[1].strip())`; a `ValueError`
from `float` falls through (returns `none` here), after which the text is
handed to the sale-line parser. -/
def tryProductAdd (text : String) : Option (String × ℚ) :=
  if ':' ∈ text.data ∧ text.data.getLast? = some '#' then
    match splitCh ':' text.data with
    | [p0, p1] =>
      match pyFloatL p1 with
      | some price => some (⟨pyStripL p0⟩, price)
      | none => none
    | _ => none
  else none

/-- Embedding of `handle_message` (profit_bot.py:269-329): while a report
is active, try the product-definition branch, otherwise parse a sale
line; a parsed sale is appended only when its model is in the base. -/
def handleMessage (st : St) (text : String) : St × MsgOutcome :=
  if st.active = true then
    match tryProductAdd text with
    | some (m, price) => ({ st with base := baseSet st.base m price }, .productAdded m price)
    | none =>
      match parse_entry text with
      | none => (st, .parseError)
      | some (r, q, m) =>
        match baseGet st.base m with
        | none => (st, .modelNotFound m)
        | some _ => ({ st with entries := st.entries ++ [(r, q, m)] }, .entryAdded r q m)
  else (st, .notActive)

/-- Observable outcome of `cmd_end_report`. -/
inductive EndOutcome
  | notStarted
  | noEntries
  | missingErr (models : List String)
  | success (rep : Report)
deriving DecidableEq

/-- Embedding of `cmd_end_report` (profit_bot.py:147-267): inactive or
empty sessions are rejected without state change; if some entry's model
is missing from the base the handler returns before computing anything —
no tables, no snapshot write, no session change; otherwise it builds the
report, persists it to the snapshot slot, and clears the session. -/
def endReport (st : St) : St × EndOutcome :=
  if st.active = true then
    if st.entries = [] then (st, .noEntries)
    else
      let missing := missingModels st.entries st.base
      if missing = [] then
        let rep := buildReport st.entries st.base st.rate
        ({ st with active := false, entries := [], snapshot := some rep }, .success rep)
      else (st, .missingErr missing)
  else (st, .notStarted)

/-- The incoming events the bot dispatches on (profit_bot.py:345-352). -/
inductive Event
  | helpCmd
  | baseCmd
  | rateCmd (arg : Option String)
  | startReportCmd
  | endReportCmd
  | message (text : String)

/-- State transition of one dispatched update: `/start` and `/base` only
read state; `/rate x` sets the rate when `float(x)` parses;
`/start_report` activates the session and clears the entries
(profit_bot.py:139-145); `/end_report` and free text as embedded above. -/
def step (st : St) (ev : Event) : St :=
  match ev with
  | .helpCmd => st
  | .baseCmd => st
  | .rateCmd none => st
  | .rateCmd (some a) =>
    match pyFloatL a.data with
    | some r => { st with rate := r }
    | none => st
  | .startReportCmd => { st with active := true, entries := [] }
  | .endReportCmd => (endReport st).1
  | .message t => (handleMessage st t).1

/-! ### Helper lemmas -/

/-- A character of the class `[\d.]` is not whitespace. -/
lemma isSpace_eq_false_of_isNumChar {c : Char} (h : isNumChar c = true) :
    isSpace c = false := by
  cases hs : isSpace c with
  | false => rfl
  | true =>
    exfalso
    have hc : ((((c = ' ' ∨ c = '\t') ∨ c = '\n') ∨ c = '\r') ∨ c = '\x0b') ∨ c = '\x0c' := by
      simpa [isSpace] using hs
    rcases hc with ((((rfl | rfl) | rfl) | rfl) | rfl) | rfl <;> exact absurd h (by decide)

/-- An ASCII digit is not whitespace. -/
lemma isSpace_eq_false_of_isDigit {c : Char} (h : c.isDigit = true) :
    isSpace c = false :=
  isSpace_eq_false_of_isNumChar (by simp [isNumChar, h])

/-- `str.strip()` is the identity on a string whose first and last
characters are not whitespace. -/
lemma pyStripL_eq_self {cs : List Char} {c d : Char}
    (hhead : cs.head? = some c) (hc : isSpace c = false)
    (hlast : cs.getLast? = some d) (hd : isSpace d = false) :
    pyStripL cs = cs := by
  cases cs with
  | nil => simp at hhead
  | cons x t =>
    have hx : x = c := by simpa using hhead
    subst hx
    unfold pyStripL
    rw [List.dropWhile_cons, hc]
    simp only [Bool.false_eq_true, if_false]
    cases hrev : (x :: t).reverse with
    | nil => simp at hrev
    | cons y u =>
      have hy : y = d := by
        have := List.head?_reverse (x :: t)
        rw [hrev] at this
        simp [hlast] at this
        exact this
      subst hy
      rw [List.dropWhile_cons, hd]
      simp only [Bool.false_eq_true, if_false]
      rw [← hrev, List.reverse_reverse]

/-- The last element of `xs ++ c :: ys`, seen from the right block. -/
lemma getLast?_append_cons (xs : List Char) (c : Char) (ys : List Char) :
    (xs ++ c :: ys).getLast? = (c :: ys).getLast? := by
  rw [List.getLast?_append]
  cases hys : (c :: ys).getLast? with
  | none => simp [List.getLast?_eq_none_iff] at hys
  | some z => rfl

/-- `dropWhile` keeps the last element when the predicate rejects it. -/
lemma getLast?_dropWhile {p : Char → Bool} :
    ∀ {cs : List Char} {c : Char}, cs.getLast? = some c → p c = false →
      (cs.dropWhile p).getLast? = some c
  | [], _, h, _ => by simp at h
  | [x], c, h, hc => by
    have hx : x = c := by simpa using h
    subst hx
    rw [List.dropWhile_cons]
    cases hp : p x with
    | false => simp
    | true => exact absurd hp (by simp [hc])
  | x :: y :: t, c, h, hc => by
    have ht : (y :: t).getLast? = some c := by
      simpa [List.getLast?_cons_cons] using h
    rw [List.dropWhile_cons]
    cases hp : p x with
    | false => simpa [List.getLast?_cons_cons] using h
    | true => exact getLast?_dropWhile ht hc

/-- Left fold of `acc + f e`, as a sum. -/
lemma foldl_add_eq (f : Entry → ℚ) :
    ∀ (es : List Entry) (a : ℚ),
      es.foldl (fun x e => x + f e) a = a + (es.map f).sum
  | [], a => by simp
  | e :: es, a => by
    rw [List.foldl_cons, foldl_add_eq f es (a + f e)]
    simp [add_assoc]

/-- Left fold of a guarded `acc + f e`, as a sum over the filtered list. -/
lemma foldl_add_ite_eq (m : String) (f : Entry → ℚ) :
    ∀ (es : List Entry) (a : ℚ),
      es.foldl (fun x e => if eModel e = m then x + f e else x) a =
        a + ((es.filter (fun e => eModel e = m)).map f).sum
  | [], a => by simp
  | e :: es, a => by
    by_cases he : eModel e = m
    · rw [List.foldl_cons, if_pos he, foldl_add_ite_eq m f es (a + f e)]
      simp [he, add_assoc]
    · rw [List.foldl_cons, if_neg he, foldl_add_ite_eq m f es a]
      simp [he]

/-- Sums split over pointwise subtraction. -/
lemma sum_map_sub (f g : Entry → ℚ) :
    ∀ (es : List Entry),
      (es.map (fun e => f e - g e)).sum = (es.map f).sum - (es.map g).sum
  | [] => by simp
  | e :: es => by
    simp only [List.map_cons, List.sum_cons, sum_map_sub f g es]
    ring

/-- A sum multiplied on the right, pushed inside. -/
lemma sum_map_mul_right (f : Entry → ℚ) (r : ℚ) :
    ∀ (es : List Entry),
      (es.map f).sum * r = (es.map (fun e => f e * r)).sum
  | [] => by simp
  | e :: es => by
    simp only [List.map_cons, List.sum_cons, ← sum_map_mul_right f r es]
    ring

/-- Membership in the `model_summary` key accumulation. -/
lemma mem_distinctModels_aux :
    ∀ (es : List Entry) (acc : List String) (m : String),
      m ∈ es.foldl (fun acc e => if eModel e ∈ acc then acc else acc ++ [eModel e]) acc ↔
        m ∈ acc ∨ ∃ e ∈ es, eModel e = m
  | [], acc, m => by simp
  | e :: es, acc, m => by
    rw [List.foldl_cons]
    by_cases he : eModel e ∈ acc
    · rw [if_pos he, mem_distinctModels_aux es acc m]
      constructor
      · rintro (h | ⟨x, hx, hxm⟩)
        · exact Or.inl h
        · exact Or.inr ⟨x, List.mem_cons_of_mem _ hx, hxm⟩
      · rintro (h | ⟨x, hx, hxm⟩)
        · exact Or.inl h
        · rcases List.mem_cons.mp hx with rfl | hx'
          · exact Or.inl (hxm ▸ he)
          · exact Or.inr ⟨x, hx', hxm⟩
    · rw [if_neg he, mem_distinctModels_aux es (acc ++ [eModel e]) m]
      simp only [List.mem_append, List.mem_singleton]
      constructor
      · rintro ((h | rfl) | ⟨x, hx, hxm⟩)
        · exact Or.inl h
        · exact Or.inr ⟨e, List.mem_cons_self _ _, rfl⟩
        · exact Or.inr ⟨x, List.mem_cons_of_mem _ hx, hxm⟩
      · rintro (h | ⟨x, hx, hxm⟩)
        · exact Or.inl (Or.inl h)
        · rcases List.mem_cons.mp hx with rfl | hx'
          · exact Or.inl (Or.inr hxm.symm)
          · exact Or.inr ⟨x, hx', hxm⟩

/-- The summary keys are exactly the models referenced by the entries. -/
lemma mem_distinctModels (es : List Entry) (m : String) :
    m ∈ distinctModels es ↔ ∃ e ∈ es, eModel e = m := by
  unfold distinctModels
  rw [mem_distinctModels_aux]
  simp

/-- Membership in the missing-models set accumulation. -/
lemma mem_missingModels_aux (b : Base) :
    ∀ (es : List Entry) (acc : List String) (m : String),
      m ∈ es.foldl
        (fun acc e =>
          if baseGet b (eModel e) = none then
            (if eModel e ∈ acc then acc else acc ++ [eModel e])
          else acc) acc ↔
        m ∈ acc ∨ ∃ e ∈ es, eModel e = m ∧ baseGet b m = none
  | [], acc, m => by simp
  | e :: es, acc, m => by
    rw [List.foldl_cons]
    by_cases hb : baseGet b (eModel e) = none
    · rw [if_pos hb]
      by_cases he : eModel e ∈ acc
      · rw [if_pos he, mem_missingModels_aux b es acc m]
        constructor
        · rintro (h | ⟨x, hx, hxm, hxb⟩)
          · exact Or.inl h
          · exact Or.inr ⟨x, List.mem_cons_of_mem _ hx, hxm, hxb⟩
        · rintro (h | ⟨x, hx, hxm, hxb⟩)
          · exact Or.inl h
          · rcases List.mem_cons.mp hx with rfl | hx'
            · exact Or.inl (hxm ▸ he)
            · exact Or.inr ⟨x, hx', hxm, hxb⟩
      · rw [if_neg he, mem_missingModels_aux b es (acc ++ [eModel e]) m]
        simp only [List.mem_append, List.mem_singleton]
        constructor
        · rintro ((h | rfl) | ⟨x, hx, hxm, hxb⟩)
          · exact Or.inl h
          · exact Or.inr ⟨e, List.mem_cons_self _ _, rfl, hb⟩
          · exact Or.inr ⟨x, List.mem_cons_of_mem _ hx, hxm, hxb⟩
        · rintro (h | ⟨x, hx, hxm, hxb⟩)
          · exact Or.inl (Or.inl h)
          · rcases List.mem_cons.mp hx with rfl | hx'
            · exact Or.inl (Or.inr hxm.symm)
            · exact Or.inr ⟨x, hx', hxm, hxb⟩
    · rw [if_neg hb, mem_missingModels_aux b es acc m]
      constructor
      · rintro (h | ⟨x, hx, hxm, hxb⟩)
        · exact Or.inl h
        · exact Or.inr ⟨x, List.mem_cons_of_mem _ hx, hxm, hxb⟩
      · rintro (h | ⟨x, hx, hxm, hxb⟩)
        · exact Or.inl h
        · rcases List.mem_cons.mp hx with rfl | hx'
          · exact absurd (hxm ▸ hxb) hb
          · exact Or.inr ⟨x, hx', hxm, hxb⟩

/-- The missing-models list holds exactly the distinct models referenced
by the entries and absent from the base. -/
lemma mem_missingModels (es : List Entry) (b : Base) (m : String) :
    m ∈ missingModels es b ↔ (∃ e ∈ es, eModel e = m) ∧ baseGet b m = none := by
  unfold missingModels
  rw [mem_missingModels_aux]
  constructor
  · rintro (h | ⟨x, hx, hxm, hxb⟩)
    · simp at h
    · exact ⟨⟨x, hx, hxm⟩, hxb⟩
  · rintro ⟨⟨x, hx, hxm⟩, hb⟩
    exact Or.inr ⟨x, hx, hxm, hb⟩

/-- The missing-models accumulation never introduces duplicates. -/
lemma nodup_missingModels_aux (b : Base) :
    ∀ (es : List Entry) (acc : List String), acc.Nodup →
      (es.foldl
        (fun acc e =>
          if baseGet b (eModel e) = none then
            (if eModel e ∈ acc then acc else acc ++ [eModel e])
          else acc) acc).Nodup
  | [], _, h => h
  | e :: es, acc, h => by
    rw [List.foldl_cons]
    by_cases hb : baseGet b (eModel e) = none
    · rw [if_pos hb]
      by_cases he : eModel e ∈ acc
      · rw [if_pos he]
        exact nodup_missingModels_aux b es acc h
      · rw [if_neg he]
        refine nodup_missingModels_aux b es _ ?_
        refine List.Nodup.append h (List.nodup_singleton _) ?_
        intro a ha ha2
        rw [List.mem_singleton] at ha2
        subst ha2
        exact he ha
    · rw [if_neg hb]
      exact nodup_missingModels_aux b es acc h

/-- The missing-models list is duplicate-free. -/
lemma nodup_missingModels (es : List Entry) (b : Base) :
    (missingModels es b).Nodup :=
  nodup_missingModels_aux b es [] List.nodup_nil

/-- No model is missing exactly when every referenced model is in the base. -/
lemma missingModels_eq_nil (es : List Entry) (b : Base) :
    missingModels es b = [] ↔ ∀ e ∈ es, (baseGet b (eModel e)).isSome := by
  rw [List.eq_nil_iff_forall_not_mem]
  constructor
  · intro h e he
    cases hb : baseGet b (eModel e) with
    | none =>
      exact absurd ((mem_missingModels es b (eModel e)).mpr ⟨⟨e, he, rfl⟩, hb⟩) (h _)
    | some v => rfl
  · intro h m hm
    obtain ⟨⟨e, he, hem⟩, hb⟩ := (mem_missingModels es b m).mp hm
    have := h e he
    rw [hem, hb] at this
    simp at this

/-! ### Claims C3, C4, C7 -/

/-- Claim C3: for every list of entries, product base and rate, the
report's grand totals satisfy `total_revenue = sum of the entries'
revenues` and `total_profit = total_revenue - total_cost` (cost in the
target currency), under exact arithmetic. -/
theorem report_grand_totals (es : List Entry) (b : Base) (rate : ℚ) :
    (buildReport es b rate).total_revenue = (es.map eRev).sum ∧
    (buildReport es b rate).total_profit =
      (buildReport es b rate).total_revenue - (buildReport es b rate).total_cost_som := by
  constructor
  · show totalRevenue es = (es.map eRev).sum
    unfold totalRevenue
    rw [foldl_add_eq, zero_add]
  · show totalProfit es b rate = totalRevenue es - totalCostSom es b rate
    unfold totalProfit totalRevenue totalCostSom
    rw [foldl_add_eq, foldl_add_eq, foldl_add_eq, zero_add, zero_add, zero_add]
    exact sum_map_sub eRev (fun e => (detailOf b rate e).cost_som) es

/-- Claim C4: the per-model summary accumulates cost in the source
currency (`unit cost × quantity`) and converts it once at the end with
the report's single rate; under exact arithmetic this equals the sum of
that model's per-line target-currency cost totals; the summary table
enumerates the distinct referenced models sorted lexicographically. -/
theorem perModel_cost_single_conversion (es : List Entry) (b : Base) (rate : ℚ) :
    ((buildReport es b rate).summaryRows.map (fun srow => srow.model) = sortedModels es) ∧
    List.Sorted (fun x y : String => x ≤ y) (sortedModels es) ∧
    (∀ m, m ∈ sortedModels es ↔ ∃ e ∈ es, eModel e = m) ∧
    (∀ m, (summaryRowOf es b rate m).cost_som = sumCostUsd es b m * rate) ∧
    (∀ m, sumCostUsd es b m * rate =
      ((es.filter (fun e => eModel e = m)).map
        (fun e => (detailOf b rate e).cost_som)).sum) := by
  refine ⟨?_, ?_, ?_, fun m => rfl, ?_⟩
  · show ((sortedModels es).map (summaryRowOf es b rate)).map (fun srow => srow.model)
        = sortedModels es
    rw [List.map_map]
    exact List.map_id _
  · exact List.sorted_insertionSort _ _
  · intro m
    unfold sortedModels
    rw [List.mem_insertionSort]
    exact mem_distinctModels es m
  · intro m
    unfold sumCostUsd
    rw [foldl_add_ite_eq m (fun e => (baseGet b (eModel e)).getD 0 * (eQty e : ℚ)) es 0,
      zero_add, sum_map_mul_right]
    refine congrArg List.sum ?_
    apply List.map_congr_left
    intro e _
    show (baseGet b (eModel e)).getD 0 * (eQty e : ℚ) * rate = (detailOf b rate e).cost_som
    show _ = (baseGet b (eModel e)).getD 0 * rate * (eQty e : ℚ)
    ring

/-- Claim C7: a zero revenue yields a margin defined as 0 (per line, per
model, and for the grand total); the division in the margin computation
is guarded by `0 < revenue`, so it is never taken with a zero divisor. -/
theorem margin_zero_guard :
    (∀ p r : ℚ, r ≤ 0 → marginPct p r = 0) ∧
    (∀ (es : List Entry) (b : Base) (rate : ℚ) d,
      d ∈ (buildReport es b rate).details → d.revenue = 0 → d.margin = 0) ∧
    (∀ (es : List Entry) (b : Base) (rate : ℚ),
      (buildReport es b rate).total_revenue = 0 →
        (buildReport es b rate).total_margin = 0) ∧
    (∀ (es : List Entry) (b : Base) (rate : ℚ) srow,
      srow ∈ (buildReport es b rate).summaryRows → srow.revenue = 0 → srow.margin = 0) := by
  have hm : ∀ p r : ℚ, r ≤ 0 → marginPct p r = 0 := by
    intro p r h
    unfold marginPct
    rw [if_neg (not_lt.mpr h)]
  refine ⟨hm, ?_, ?_, ?_⟩
  · intro es b rate d hd hrev
    obtain ⟨e, _, rfl⟩ := List.mem_map.mp hd
    have hd2 : (detailOf b rate e).margin =
        marginPct ((detailOf b rate e).profit) (eRev e) := rfl
    have h0 : eRev e = 0 := hrev
    rw [hd2, h0]
    exact hm _ 0 le_rfl
  · intro es b rate h
    have hd2 : (buildReport es b rate).total_margin =
        marginPct (totalProfit es b rate) (totalRevenue es) := rfl
    have h0 : totalRevenue es = 0 := h
    rw [hd2, h0]
    exact hm _ 0 le_rfl
  · intro es b rate srow hs hrev
    obtain ⟨m, _, rfl⟩ := List.mem_map.mp hs
    have hd2 : (summaryRowOf es b rate m).margin =
        marginPct ((summaryRowOf es b rate m).profit) (sumRev es m) := rfl
    have h0 : sumRev es m = 0 := hrev
    rw [hd2, h0]
    exact hm _ 0 le_rfl

/-- Witness for C7: the margin of a line with revenue 0 evaluates to 0. -/
theorem margin_zero_guard_concrete : marginPct 5 0 = 0 :=
  margin_zero_guard.1 5 0 le_rfl

/-- Witness for C4: at a concrete report with models registered out of
order, the summary enumeration is sorted, its keys are the referenced
models, and the per-model cost equals the per-line sum. -/
theorem perModel_cost_concrete :
    List.Sorted (fun x y : String => x ≤ y)
      (sortedModels [((1 : ℚ), 2, "b#"), ((2 : ℚ), 1, "a#"), ((3 : ℚ), 1, "b#")]) ∧
    ("a#" ∈ sortedModels [((1 : ℚ), 2, "b#"), ((2 : ℚ), 1, "a#"), ((3 : ℚ), 1, "b#")] ↔
      ∃ e ∈ [((1 : ℚ), 2, "b#"), ((2 : ℚ), 1, "a#"), ((3 : ℚ), 1, "b#")], eModel e = "a#") :=
  ⟨(perModel_cost_single_conversion _ [] 88).2.1,
   (perModel_cost_single_conversion _ [] 88).2.2.1 "a#"⟩

example : ∃ v, parse_entry "800 2 abc#" = some (v, 2, "abc#") := ⟨_, rfl⟩
example : ∃ v, parse_entry "550 vrn#" = some (v, 1, "vrn#") := ⟨_, rfl⟩
example : ∃ v, parse_entry "800 0 x#" = some (v, 0, "x#") := ⟨_, rfl⟩
example : ∃ v, parse_entry "800  #" = some (v, 1, "#") := ⟨_, rfl⟩
example : parse_entry "" = none := rfl
example : parse_entry "   " = none := rfl
example : parse_entry "5.50:abc#" = none := rfl
example : tryProductAdd "abc#:5.50" = none := rfl
example : tryProductAdd "5.50:abc#" = none := rfl
example : pyFloatL "5.50".data = some (11 / 2) := by
  simp [pyFloatL, floatMantissaExp, pyStripL, natOfDigits, parseExp, isSpace]
  norm_num

/-! ### The `float`-rejection of strings ending in the terminator,
and the resulting unreachability of the product-definition branch -/

/-- A string whose last character is `'#'` is not all digits. -/
lemma all_digit_false_of_last_hash {l : List Char} (h : l.getLast? = some '#') :
    l.all Char.isDigit = false := by
  cases hall : l.all Char.isDigit with
  | false => rfl
  | true =>
    exfalso
    have hmem : '#' ∈ l := List.mem_of_getLast?_eq_some h
    exact absurd (List.all_eq_true.mp hall '#' hmem) (by decide)

/-- The exponent tail rejects any string ending in `'#'`. -/
lemma parseExpTail_none_of_last_hash {r : List Char} (h : r.getLast? = some '#') :
    parseExpTail r = none := by
  cases r with
  | nil => simp at h
  | cons c rest =>
    simp only [parseExpTail]
    by_cases hc : c = '+'
    · rw [if_pos hc]
      cases rest with
      | nil =>
        simp only [ne_eq, not_true_eq_false, false_and, if_false]
      | cons y u =>
        have hy : (y :: u).getLast? = some '#' := by
          rw [List.getLast?_cons_cons] at h
          exact h
        simp [all_digit_false_of_last_hash hy]
    · rw [if_neg hc]
      by_cases hc2 : c = '-'
      · rw [if_pos hc2]
        cases rest with
        | nil =>
          simp only [ne_eq, not_true_eq_false, false_and, if_false]
        | cons y u =>
          have hy : (y :: u).getLast? = some '#' := by
            rw [List.getLast?_cons_cons] at h
            exact h
          simp [all_digit_false_of_last_hash hy]
      · rw [if_neg hc2]
        simp [all_digit_false_of_last_hash h]

/-- The exponent part rejects any non-empty string ending in `'#'`. -/
lemma parseExp_none_of_last_hash {r : List Char} (h : r.getLast? = some '#') :
    parseExp r = none := by
  cases r with
  | nil => simp at h
  | cons c rest =>
    simp only [parseExp]
    by_cases hc : c = 'e' ∨ c = 'E'
    · rw [if_pos hc]
      cases rest with
      | nil =>
        rcases hc with rfl | rfl <;> exact absurd h (by decide)
      | cons y u =>
        have hy : (y :: u).getLast? = some '#' := by
          rw [List.getLast?_cons_cons] at h
          exact h
        exact parseExpTail_none_of_last_hash hy
    · rw [if_neg hc]

/-- The mantissa-and-exponent grammar rejects any string ending in `'#'`. -/
lemma floatMantissaExp_none_of_last_hash (sign : ℚ) {t1 : List Char}
    (h : t1.getLast? = some '#') : floatMantissaExp sign t1 = none := by
  have hr1 : (t1.dropWhile Char.isDigit).getLast? = some '#' :=
    getLast?_dropWhile h (by decide)
  simp only [floatMantissaExp]
  split
  · rename_i r2 heq
    have hr2 : r2.getLast? = some '#' := by
      rw [heq] at hr1
      cases r2 with
      | nil => exact absurd hr1 (by decide)
      | cons y u =>
        rw [List.getLast?_cons_cons] at hr1
        exact hr1
    have hr3 : (r2.dropWhile Char.isDigit).getLast? = some '#' :=
      getLast?_dropWhile hr2 (by decide)
    rw [parseExp_none_of_last_hash hr3]
    simp
  · rw [parseExp_none_of_last_hash hr1]
    simp

/-- Stripping preserves a non-whitespace last character. -/
lemma pyStripL_getLast?_of_not_space {cs : List Char} {c : Char}
    (h : cs.getLast? = some c) (hc : isSpace c = false) :
    (pyStripL cs).getLast? = some c := by
  have h1 : (cs.dropWhile isSpace).getLast? = some c := getLast?_dropWhile h hc
  have h2 : (cs.dropWhile isSpace).reverse.head? = some c := by
    rw [List.head?_reverse]
    exact h1
  unfold pyStripL
  cases hz : (cs.dropWhile isSpace).reverse with
  | nil => rw [hz] at h2; simp at h2
  | cons z u =>
    have hzc : z = c := by rw [hz] at h2; simpa using h2
    subst hzc
    rw [List.dropWhile_cons, hc]
    simp only [Bool.false_eq_true, if_false]
    rw [List.getLast?_reverse]
    simp

/-- Python's `float()` rejects any string whose stripped form still ends
in the terminator `'#'`. -/
lemma pyFloatL_none_of_last_hash {cs : List Char} (h : cs.getLast? = some '#') :
    pyFloatL cs = none := by
  have h1 : (pyStripL cs).getLast? = some '#' :=
    pyStripL_getLast?_of_not_space h (by decide)
  unfold pyFloatL
  split
  · rename_i r heq
    have hr : r.getLast? = some '#' := by
      rw [heq] at h1
      cases r with
      | nil => exact absurd h1 (by decide)
      | cons y u =>
        rw [List.getLast?_cons_cons] at h1
        exact h1
    exact floatMantissaExp_none_of_last_hash 1 hr
  · rename_i r heq
    have hr : r.getLast? = some '#' := by
      rw [heq] at h1
      cases r with
      | nil => exact absurd h1 (by decide)
      | cons y u =>
        rw [List.getLast?_cons_cons] at h1
        exact h1
    exact floatMantissaExp_none_of_last_hash (-1) hr
  · exact floatMantissaExp_none_of_last_hash 1 h1

/-- `split` never returns the empty list of pieces. -/
lemma splitCh_ne_nil (sep : Char) : ∀ cs : List Char, splitCh sep cs ≠ []
  | [] => by simp [splitCh]
  | c :: rest => by
    simp only [splitCh]
    by_cases hc : c = sep
    · simp [hc]
    · rw [if_neg hc]
      cases hs : splitCh sep rest with
      | nil => simp [consHead]
      | cons g gs => simp [consHead]

/-- A one-piece split means the separator does not occur: the piece is
the whole input. -/
lemma splitCh_single {sep : Char} : ∀ {cs x : List Char}, splitCh sep cs = [x] → cs = x
  | [], x, h => by
    simp only [splitCh] at h
    injection h with h1 h2
  | c :: rest, x, h => by
    simp only [splitCh] at h
    by_cases hc : c = sep
    · rw [if_pos hc] at h
      injection h with h1 h2
      exact absurd h2 (splitCh_ne_nil sep rest)
    · rw [if_neg hc] at h
      cases hs : splitCh sep rest with
      | nil => exact absurd hs (splitCh_ne_nil sep rest)
      | cons g gs =>
        rw [hs] at h
        simp only [consHead] at h
        injection h with h1 h2
        subst h2
        have hr : rest = g := splitCh_single hs
        rw [← h1, hr]

/-- A two-piece split recovers the input around the single separator. -/
lemma splitCh_pair {sep : Char} :
    ∀ {cs a b : List Char}, splitCh sep cs = [a, b] → cs = a ++ sep :: b
  | [], a, b, h => by simp [splitCh] at h
  | c :: rest, a, b, h => by
    simp only [splitCh] at h
    by_cases hc : c = sep
    · rw [if_pos hc] at h
      injection h with h1 h2
      have hr : rest = b := splitCh_single h2
      rw [← h1, hc, hr]
      rfl
    · rw [if_neg hc] at h
      cases hs : splitCh sep rest with
      | nil => exact absurd hs (splitCh_ne_nil sep rest)
      | cons g gs =>
        rw [hs] at h
        simp only [consHead] at h
        injection h with h1 h2
        have hr : rest = g ++ sep :: b := splitCh_pair (by rw [hs, h2])
        rw [← h1, hr]
        rfl

/-- The product-definition branch of `handle_message` can never fire: its
guard demands that the whole text end in `'#'`, so the price substring
(after the only `':'`) also ends in `'#'`, which `float` rejects; every
message therefore falls through to the sale-line parser. -/
lemma tryProductAdd_none (text : String) : tryProductAdd text = none := by
  unfold tryProductAdd
  by_cases hcond : ':' ∈ text.data ∧ text.data.getLast? = some '#'
  · rw [if_pos hcond]
    cases hs : splitCh ':' text.data with
    | nil => rfl
    | cons p0 rest =>
      cases rest with
      | nil => rfl
      | cons p1 rest2 =>
        cases rest2 with
        | cons x rest3 => rfl
        | nil =>
          have hdata : text.data = p0 ++ ':' :: p1 := splitCh_pair hs
          have hp1 : p1.getLast? = some '#' := by
            have h2 := hcond.2
            rw [hdata, getLast?_append_cons] at h2
            cases p1 with
            | nil => exact absurd h2 (by decide)
            | cons y u =>
              rw [List.getLast?_cons_cons] at h2
              exact h2
          simp [pyFloatL_none_of_last_hash hp1]
  · rw [if_neg hcond]

/-! ### Claims C1, C2, C8, C10 -/

/-- Claim C1 (amended): if some entry references a model absent from the
base, `cmd_end_report` fails with the missing-models error carrying
exactly the distinct missing models (in the unspecified iteration order
of a Python set — not necessarily sorted), and no partial report is
produced: the state, including the snapshot slot and the session, is
returned unchanged. -/
theorem missingModels_failure_exact (st : St)
    (hact : st.active = true)
    (h : ∃ e ∈ st.entries, baseGet st.base (eModel e) = none) :
    endReport st = (st, .missingErr (missingModels st.entries st.base)) ∧
    (missingModels st.entries st.base).Nodup ∧
    (∀ m, m ∈ missingModels st.entries st.base ↔
      (∃ e ∈ st.entries, eModel e = m) ∧ baseGet st.base m = none) := by
  obtain ⟨e, he, hb⟩ := h
  have hne : st.entries ≠ [] := by
    intro h0
    rw [h0] at he
    simp at he
  have hmem : eModel e ∈ missingModels st.entries st.base :=
    (mem_missingModels _ _ _).mpr ⟨⟨e, he, rfl⟩, hb⟩
  have hmiss : missingModels st.entries st.base ≠ [] := by
    intro h0
    rw [h0] at hmem
    simp at hmem
  refine ⟨?_, nodup_missingModels _ _, fun m => mem_missingModels _ _ m⟩
  unfold endReport
  rw [if_pos hact, if_neg hne, if_neg hmiss]

/-- Counterexample for C1 as stated: with entries referencing the missing
models `"b#"` then `"a#"` against an empty base, the failure carries
exactly those two distinct models, but the code never sorts them — the
joined message renders a CPython set in unspecified, hash-dependent
iteration order, and the enumeration `["b#", "a#"]` is a valid such
order that is not sorted. -/
theorem missingModels_unsorted_enumeration :
    missingModels [((1 : ℚ), 1, "b#"), ((1 : ℚ), 1, "a#")] [] = ["b#", "a#"] ∧
    validSetEnum ["b#", "a#"]
      (missingModels [((1 : ℚ), 1, "b#"), ((1 : ℚ), 1, "a#")] []) ∧
    ¬ List.Sorted (fun x y : String => x ≤ y) ["b#", "a#"] := by
  refine ⟨rfl, ⟨by decide, fun m => Iff.rfl⟩, ?_⟩
  intro hsort
  have hle : ("b#" : String) ≤ "a#" := List.rel_of_sorted_cons hsort "a#" (by simp)
  rw [String.le_iff_toList_le] at hle
  exact absurd hle (by decide)

/-- Witness for C1: at a concrete failing session the handler returns the
missing-models outcome and the unchanged state. -/
theorem missingModels_failure_concrete :
    endReport ⟨true, [((1 : ℚ), 1, "b#"), ((1 : ℚ), 1, "a#")], [], 88, none⟩ =
      (⟨true, [((1 : ℚ), 1, "b#"), ((1 : ℚ), 1, "a#")], [], 88, none⟩,
        .missingErr ["b#", "a#"]) :=
  (missingModels_failure_exact
    ⟨true, [((1 : ℚ), 1, "b#"), ((1 : ℚ), 1, "a#")], [], 88, none⟩ rfl
    ⟨((1 : ℚ), 1, "b#"), List.mem_cons_self _ _, rfl⟩).1

/-- Claim C2 (code bug): no incoming text ever reaches the product upsert
— in particular the documented shape `model#:price` is handed to the
sale-line parser and rejected, with no base mutation and no entry
recorded. -/
theorem productDefinition_branch_unreachable :
    (∀ text : String, tryProductAdd text = none) ∧
    handleMessage ⟨true, [], [], 88, none⟩ "abc#:5.50" =
      (⟨true, [], [], 88, none⟩, .parseError) ∧
    handleMessage ⟨true, [], [], 88, none⟩ "5.50:abc#" =
      (⟨true, [], [], 88, none⟩, .parseError) :=
  ⟨tryProductAdd_none, rfl, rfl⟩

/-- Claim C8: on a missing-models failure the session is left exactly as
it was — still report-active, entries intact, snapshot untouched — and
once every referenced model is present in the base, the same
finalization deterministically succeeds. -/
theorem missingModels_retryable (st : St)
    (hact : st.active = true) (hne : st.entries ≠ [])
    (hmiss : missingModels st.entries st.base ≠ []) :
    endReport st = (st, .missingErr (missingModels st.entries st.base)) ∧
    (∀ b2 : Base, (∀ e ∈ st.entries, (baseGet b2 (eModel e)).isSome) →
      endReport { st with base := b2 } =
        (⟨false, [], b2, st.rate, some (buildReport st.entries b2 st.rate)⟩,
          EndOutcome.success (buildReport st.entries b2 st.rate))) := by
  constructor
  · unfold endReport
    rw [if_pos hact, if_neg hne, if_neg hmiss]
  · intro b2 hall
    have h0 : missingModels st.entries b2 = [] := (missingModels_eq_nil _ _).mpr hall
    show endReport ⟨st.active, st.entries, b2, st.rate, st.snapshot⟩ = _
    unfold endReport
    rw [if_pos hact, if_neg hne, if_pos h0]

/-- Witness for C8: a concrete failing session, then the successful retry
after the missing model is registered. -/
theorem missingModels_retryable_concrete :
    endReport ⟨true, [((1 : ℚ), 1, "b#")], [], 88, none⟩ =
      (⟨true, [((1 : ℚ), 1, "b#")], [], 88, none⟩, .missingErr ["b#"]) ∧
    endReport ⟨true, [((1 : ℚ), 1, "b#")], [("b#", (5 : ℚ))], 88, none⟩ =
      (⟨false, [], [("b#", (5 : ℚ))], 88,
          some (buildReport [((1 : ℚ), 1, "b#")] [("b#", (5 : ℚ))] 88)⟩,
        EndOutcome.success (buildReport [((1 : ℚ), 1, "b#")] [("b#", (5 : ℚ))] 88)) :=
  ⟨(missingModels_retryable _ rfl (by decide) (by decide)).1,
   (missingModels_retryable ⟨true, [((1 : ℚ), 1, "b#")], [], 88, none⟩ rfl (by decide)
      (by decide)).2 [("b#", (5 : ℚ))] (by decide)⟩

/-- An upsert never removes a key from the base. -/
lemma baseGet_baseSet_isSome (b : Base) (k : String) (v : ℚ) (m : String)
    (h : (baseGet b m).isSome) : (baseGet (baseSet b k v) m).isSome := by
  induction b with
  | nil => simp [baseGet] at h
  | cons p rest ih =>
    obtain ⟨pk, pv⟩ := p
    unfold baseSet
    by_cases hk : pk = k
    · rw [if_pos hk]
      subst hk
      unfold baseGet at h ⊢
      by_cases hm : pk = m
      · rw [if_pos hm]
        rfl
      · rw [if_neg hm]
        rw [if_neg hm] at h
        exact h
    · rw [if_neg hk]
      unfold baseGet at h ⊢
      by_cases hm : pk = m
      · rw [if_pos hm] at h ⊢
        exact h
      · rw [if_neg hm] at h ⊢
        exact ih h

/-- With a report active, every message falls through the (unreachable)
product branch into the sale-line path. -/
lemma handleMessage_eq (st : St) (text : String) (h : st.active = true) :
    handleMessage st text =
      match parse_entry text with
      | none => (st, .parseError)
      | some (r, q, m) =>
        match baseGet st.base m with
        | none => (st, .modelNotFound m)
        | some _ => ({ st with entries := st.entries ++ [(r, q, m)] }, .entryAdded r q m) := by
  unfold handleMessage
  rw [if_pos h, tryProductAdd_none text]

/-- Claim C10: a sale entry is appended only when its model is present in
the base at that moment; a parsed sale line whose model is absent is
rejected without any state change; and no operation of the bot ever
removes a model from the product base. -/
theorem entries_reference_base_models :
    (∀ (st : St) (text : String),
      (handleMessage st text).1.entries = st.entries ∨
      ∃ r q m, (handleMessage st text).1.entries = st.entries ++ [(r, q, m)] ∧
        (baseGet st.base m).isSome) ∧
    (∀ (st : St) (text : String) (r : ℚ) (q : ℕ) (m : String),
      st.active = true → parse_entry text = some (r, q, m) →
      baseGet st.base m = none → handleMessage st text = (st, .modelNotFound m)) ∧
    (∀ (st : St) (ev : Event) (m : String),
      (baseGet st.base m).isSome → (baseGet (step st ev).base m).isSome) := by
  refine ⟨?_, ?_, ?_⟩
  · intro st text
    by_cases ha : st.active = true
    · rw [handleMessage_eq st text ha]
      cases he : parse_entry text with
      | none => exact Or.inl rfl
      | some tup =>
        obtain ⟨r, q, m⟩ := tup
        dsimp only
        cases hb : baseGet st.base m with
        | none => exact Or.inl rfl
        | some v =>
          exact Or.inr ⟨r, q, m, rfl, by rw [hb]; rfl⟩
    · unfold handleMessage
      rw [if_neg ha]
      exact Or.inl rfl
  · intro st text r q m ha he hb
    rw [handleMessage_eq st text ha, he]
    dsimp only
    rw [hb]
  · intro st ev m h
    cases ev with
    | helpCmd => exact h
    | baseCmd => exact h
    | rateCmd arg =>
      cases arg with
      | none => exact h
      | some a =>
        simp only [step]
        cases hf : pyFloatL a.data with
        | none => exact h
        | some rr => exact h
    | startReportCmd => exact h
    | endReportCmd =>
      simp only [step]
      unfold endReport
      by_cases h1 : st.active = true
      · rw [if_pos h1]
        by_cases h2 : st.entries = []
        · rw [if_pos h2]
          exact h
        · rw [if_neg h2]
          by_cases h3 : missingModels st.entries st.base = []
          · rw [if_pos h3]
            exact h
          · rw [if_neg h3]
            exact h
      · rw [if_neg h1]
        exact h
    | message t =>
      by_cases ha : st.active = true
      · simp only [step]
        rw [handleMessage_eq st t ha]
        cases he : parse_entry t with
        | none => exact h
        | some tup =>
          obtain ⟨r, q, mm⟩ := tup
          dsimp only
          cases hb : baseGet st.base mm with
          | none => exact h
          | some v => exact h
      · simp only [step]
        unfold handleMessage
        rw [if_neg ha]
        exact h

/-- Witness for C10: a concrete message whose model is absent is rejected
with the session unchanged, and the base keys survive a step. -/
theorem entries_reference_base_models_concrete :
    handleMessage ⟨true, [], [("a#", (5 : ℚ))], 88, none⟩ "800 2 zz#" =
      (⟨true, [], [("a#", (5 : ℚ))], 88, none⟩, .modelNotFound "zz#") ∧
    (baseGet (step ⟨true, [], [("a#", (5 : ℚ))], 88, none⟩ .startReportCmd).base "a#").isSome :=
  ⟨entries_reference_base_models.2.1 ⟨true, [], [("a#", (5 : ℚ))], 88, none⟩
      "800 2 zz#" _ 2 "zz#" rfl rfl rfl,
   entries_reference_base_models.2.2 ⟨true, [], [("a#", (5 : ℚ))], 88, none⟩
      .startReportCmd "a#" rfl⟩

/-! ### Claims C5, C6, C9 — the sale-line parser -/

/-- The terminal `.+#` matcher accepts the model block under the grammar
conditions. -/
lemma matchDC_eq_some {md : List Char} (hmdlen : 2 ≤ md.length)
    (hmdlast : md.getLast? = some '#') (hmdnl : ∀ c ∈ md, c ≠ '\n') :
    matchDC md = some md := by
  unfold matchDC
  rw [if_pos ⟨hmdlen, hmdlast, fun c hc => hmdnl c (List.dropLast_subset md hc)⟩]

/-- With no whitespace left to give back, `tryShift` is just `matchDC`. -/
lemma tryShift_nil (after : List Char) (h : matchDC after = some after) :
    tryShift [] after = some after := by
  rw [tryShift, h]

/-- The regex match on `<revenue> <qty> <model#>`: the optional group
captures the quantity token. -/
lemma matchEntry_with_qty (rv q md : List Char)
    (hrv0 : rv ≠ []) (hrvnum : ∀ c ∈ rv, isNumChar c = true)
    (hq0 : q ≠ []) (hqdig : ∀ c ∈ q, c.isDigit = true)
    (hmdlen : 2 ≤ md.length) (hmdlast : md.getLast? = some '#')
    (hmdnl : ∀ c ∈ md, c ≠ '\n')
    (hmdhead : ∀ c, md.head? = some c → isSpace c = false) :
    matchEntry (rv ++ ' ' :: (q ++ ' ' :: md)) = some (rv, some q, md) := by
  obtain ⟨q0, qt, rfl⟩ := List.exists_cons_of_ne_nil hq0
  have hmd0 : md ≠ [] := by
    intro h0
    rw [h0] at hmdlen
    simp at hmdlen
  obtain ⟨m0, mt, rfl⟩ := List.exists_cons_of_ne_nil hmd0
  have hq0sp : isSpace q0 = false :=
    isSpace_eq_false_of_isDigit (hqdig q0 (List.mem_cons_self _ _))
  have hm0sp : isSpace m0 = false := hmdhead m0 rfl
  have hspn : isNumChar ' ' = false := rfl
  have hspd : Char.isDigit ' ' = false := rfl
  have hsps : isSpace ' ' = true := rfl
  have hA : ((rv ++ ' ' :: ((q0 :: qt) ++ ' ' :: (m0 :: mt))).takeWhile isNumChar) = rv := by
    rw [List.takeWhile_append_of_pos hrvnum, List.takeWhile_cons, hspn]
    simp
  have hA2 : ((rv ++ ' ' :: ((q0 :: qt) ++ ' ' :: (m0 :: mt))).dropWhile isNumChar) =
      ' ' :: ((q0 :: qt) ++ ' ' :: (m0 :: mt)) := by
    rw [List.dropWhile_append_of_pos hrvnum, List.dropWhile_cons, hspn]
    simp
  have hB : ((' ' :: ((q0 :: qt) ++ ' ' :: (m0 :: mt))).takeWhile isSpace) = [' '] := by
    rw [List.takeWhile_cons, hsps]
    simp only [if_true]
    rw [List.cons_append, List.takeWhile_cons, hq0sp]
    simp
  have hB2 : ((' ' :: ((q0 :: qt) ++ ' ' :: (m0 :: mt))).dropWhile isSpace) =
      (q0 :: qt) ++ ' ' :: (m0 :: mt) := by
    rw [List.dropWhile_cons, hsps]
    simp only [if_true]
    rw [List.cons_append, List.dropWhile_cons, hq0sp]
    simp
  have hD : (((q0 :: qt) ++ ' ' :: (m0 :: mt)).takeWhile Char.isDigit) = q0 :: qt := by
    rw [List.takeWhile_append_of_pos hqdig, List.takeWhile_cons, hspd]
    simp
  have hD2 : (((q0 :: qt) ++ ' ' :: (m0 :: mt)).dropWhile Char.isDigit) =
      ' ' :: (m0 :: mt) := by
    rw [List.dropWhile_append_of_pos hqdig, List.dropWhile_cons, hspd]
    simp
  have hS : ((' ' :: (m0 :: mt)).takeWhile isSpace) = [' '] := by
    rw [List.takeWhile_cons, hsps]
    simp only [if_true]
    rw [List.takeWhile_cons, hm0sp]
    simp
  have hS2 : ((' ' :: (m0 :: mt)).dropWhile isSpace) = m0 :: mt := by
    rw [List.dropWhile_cons, hsps]
    simp only [if_true]
    rw [List.dropWhile_cons, hm0sp]
    simp
  have htry : tryShift (([' '].drop 1).reverse) (m0 :: mt) = some (m0 :: mt) :=
    tryShift_nil _ (matchDC_eq_some hmdlen hmdlast hmdnl)
  simp only [matchEntry, hA, hA2, hB, hB2, hD, hD2, hS, hS2, htry, if_neg hrv0, if_neg hq0]
  simp

/-- The regex match on `<revenue> <model#>` where the model does not start
with a digit: the optional group is absent. -/
lemma matchEntry_no_qty (rv md : List Char)
    (hrv0 : rv ≠ []) (hrvnum : ∀ c ∈ rv, isNumChar c = true)
    (hmdlen : 2 ≤ md.length) (hmdlast : md.getLast? = some '#')
    (hmdnl : ∀ c ∈ md, c ≠ '\n')
    (hmdhead : ∀ c, md.head? = some c → isSpace c = false ∧ c.isDigit = false) :
    matchEntry (rv ++ ' ' :: md) = some (rv, none, md) := by
  have hmd0 : md ≠ [] := by
    intro h0
    rw [h0] at hmdlen
    simp at hmdlen
  obtain ⟨m0, mt, rfl⟩ := List.exists_cons_of_ne_nil hmd0
  have hm0sp : isSpace m0 = false := (hmdhead m0 rfl).1
  have hm0d : Char.isDigit m0 = false := (hmdhead m0 rfl).2
  have hspn : isNumChar ' ' = false := rfl
  have hsps : isSpace ' ' = true := rfl
  have hA : ((rv ++ ' ' :: (m0 :: mt)).takeWhile isNumChar) = rv := by
    rw [List.takeWhile_append_of_pos hrvnum, List.takeWhile_cons, hspn]
    simp
  have hA2 : ((rv ++ ' ' :: (m0 :: mt)).dropWhile isNumChar) = ' ' :: (m0 :: mt) := by
    rw [List.dropWhile_append_of_pos hrvnum, List.dropWhile_cons, hspn]
    simp
  have hB : ((' ' :: (m0 :: mt)).takeWhile isSpace) = [' '] := by
    rw [List.takeWhile_cons, hsps]
    simp only [if_true]
    rw [List.takeWhile_cons, hm0sp]
    simp
  have hB2 : ((' ' :: (m0 :: mt)).dropWhile isSpace) = m0 :: mt := by
    rw [List.dropWhile_cons, hsps]
    simp only [if_true]
    rw [List.dropWhile_cons, hm0sp]
    simp
  have hD : ((m0 :: mt).takeWhile Char.isDigit) = [] := by
    rw [List.takeWhile_cons, hm0d]
    simp
  have htry : tryShift (([' '].drop 1).reverse) (m0 :: mt) = some (m0 :: mt) :=
    tryShift_nil _ (matchDC_eq_some hmdlen hmdlast hmdnl)
  simp only [matchEntry, hA, hA2, hB, hB2, hD, htry, if_neg hrv0]
  simp

/-- Claim C5: for every well-formed sale line `<revenue> <qty> <model>#`
the parser yields quantity exactly the integer value of the quantity
token, and for every well-formed line `<revenue> <model>#` with no
quantity token (the model does not start with a digit) it yields
quantity 1. -/
theorem parse_entry_quantity_exact :
    (∀ (rv q md : List Char) (v : ℚ),
      rv ≠ [] → (∀ c ∈ rv, isNumChar c = true) → pyFloatL rv = some v →
      q ≠ [] → (∀ c ∈ q, c.isDigit = true) →
      2 ≤ md.length → md.getLast? = some '#' → (∀ c ∈ md, c ≠ '\n') →
      (∀ c, md.head? = some c → isSpace c = false) →
      parse_entry ⟨rv ++ ' ' :: (q ++ ' ' :: md)⟩ = some (v, natOfDigits q, ⟨md⟩)) ∧
    (∀ (rv md : List Char) (v : ℚ),
      rv ≠ [] → (∀ c ∈ rv, isNumChar c = true) → pyFloatL rv = some v →
      2 ≤ md.length → md.getLast? = some '#' → (∀ c ∈ md, c ≠ '\n') →
      (∀ c, md.head? = some c → isSpace c = false ∧ c.isDigit = false) →
      parse_entry ⟨rv ++ ' ' :: md⟩ = some (v, 1, ⟨md⟩)) := by
  constructor
  · intro rv q md v hrv0 hrvnum hv hq0 hqdig hmdlen hmdlast hmdnl hmdhead
    obtain ⟨r0, rt, rfl⟩ := List.exists_cons_of_ne_nil hrv0
    have hmd0 : md ≠ [] := by
      intro h0
      rw [h0] at hmdlen
      simp at hmdlen
    obtain ⟨m0, mt, rfl⟩ := List.exists_cons_of_ne_nil hmd0
    have hline : ((r0 :: rt) ++ ' ' :: (q ++ ' ' :: (m0 :: mt))).getLast? = some '#' := by
      rw [getLast?_append_cons, ← List.cons_append, getLast?_append_cons]
      rw [List.getLast?_cons_cons]
      exact hmdlast
    have hstrip : pyStripL ((r0 :: rt) ++ ' ' :: (q ++ ' ' :: (m0 :: mt))) =
        (r0 :: rt) ++ ' ' :: (q ++ ' ' :: (m0 :: mt)) :=
      pyStripL_eq_self rfl
        (isSpace_eq_false_of_isNumChar (hrvnum r0 (List.mem_cons_self _ _)))
        hline (by decide)
    have hmds : pyStripL (m0 :: mt) = m0 :: mt :=
      pyStripL_eq_self rfl (hmdhead m0 rfl) hmdlast (by decide)
    have hne : (r0 :: rt) ++ ' ' :: (q ++ ' ' :: (m0 :: mt)) ≠ [] := by simp
    simp only [parse_entry]
    rw [hstrip, if_neg hne,
      matchEntry_with_qty _ _ _ hrv0 hrvnum hq0 hqdig hmdlen hmdlast hmdnl hmdhead]
    dsimp only
    rw [hv]
    dsimp only [qtyVal]
    rw [hmds]
  · intro rv md v hrv0 hrvnum hv hmdlen hmdlast hmdnl hmdhead
    obtain ⟨r0, rt, rfl⟩ := List.exists_cons_of_ne_nil hrv0
    have hmd0 : md ≠ [] := by
      intro h0
      rw [h0] at hmdlen
      simp at hmdlen
    obtain ⟨m0, mt, rfl⟩ := List.exists_cons_of_ne_nil hmd0
    have hline : ((r0 :: rt) ++ ' ' :: (m0 :: mt)).getLast? = some '#' := by
      rw [getLast?_append_cons, List.getLast?_cons_cons]
      exact hmdlast
    have hstrip : pyStripL ((r0 :: rt) ++ ' ' :: (m0 :: mt)) =
        (r0 :: rt) ++ ' ' :: (m0 :: mt) :=
      pyStripL_eq_self rfl
        (isSpace_eq_false_of_isNumChar (hrvnum r0 (List.mem_cons_self _ _)))
        hline (by decide)
    have hmds : pyStripL (m0 :: mt) = m0 :: mt :=
      pyStripL_eq_self rfl (hmdhead m0 rfl).1 hmdlast (by decide)
    have hne : (r0 :: rt) ++ ' ' :: (m0 :: mt) ≠ [] := by simp
    simp only [parse_entry]
    rw [hstrip, if_neg hne,
      matchEntry_no_qty _ _ hrv0 hrvnum hmdlen hmdlast hmdnl hmdhead]
    dsimp only
    rw [hv]
    dsimp only [qtyVal]
    rw [hmds]

/-- Witness for C5: the help-text examples `800 2 махрп#` (explicit
quantity 2) and `550 врн#` (no quantity token, so quantity 1), in ASCII
form. -/
theorem parse_entry_quantity_concrete :
    (∃ v, parse_entry "800 2 abc#" = some (v, 2, "abc#")) ∧
    (∃ v, parse_entry "550 vrn#" = some (v, 1, "vrn#")) :=
  ⟨⟨_, parse_entry_quantity_exact.1 ['8', '0', '0'] ['2'] ['a', 'b', 'c', '#'] _
      (by decide) (by decide) rfl (by decide) (by decide) (by decide) (by decide)
      (by decide) (by decide)⟩,
   ⟨_, parse_entry_quantity_exact.2 ['5', '5', '0'] ['v', 'r', 'n', '#'] _
      (by decide) (by decide) rfl (by decide) (by decide) (by decide) (by decide)⟩⟩

/-- Counterexample for C6: the line `800 0 x#` parses successfully with
quantity 0 — the regex accepts `0` as the quantity token and `int("0")`
is 0, so a parsed entry with quantity strictly below 1 exists. -/
theorem parse_entry_zero_quantity :
    (parse_entry "800 0 x#").map (fun e => e.2.1) = some 0 ∧ (0 : ℕ) < 1 :=
  ⟨rfl, by decide⟩

/-- Claim C6 (amended): every successfully parsed sale entry has quantity
at least 1 — defaulting to 1 when the quantity token is absent — unless
the line carries an explicit quantity token of integer value 0, in which
case the quantity is 0. -/
theorem parse_entry_quantity_cases (text : String) (r : ℚ) (q : ℕ) (m : String)
    (h : parse_entry text = some (r, q, m)) :
    1 ≤ q ∨ (q = 0 ∧ ∃ g1 g3 t, matchEntry (pyStripL text.data) = some (g1, some t, g3) ∧
      natOfDigits t = 0) := by
  simp only [parse_entry] at h
  by_cases h0 : pyStripL text.data = []
  · rw [if_pos h0] at h
    exact absurd h (by simp)
  · rw [if_neg h0] at h
    cases hm : matchEntry (pyStripL text.data) with
    | none =>
      rw [hm] at h
      exact absurd h (by simp)
    | some g =>
      obtain ⟨g1, g2, g3⟩ := g
      rw [hm] at h
      dsimp only at h
      cases hf : pyFloatL g1 with
      | none =>
        rw [hf] at h
        exact absurd h (by simp)
      | some rev =>
        rw [hf] at h
        dsimp only at h
        injection h with h1
        injection h1 with h2 h3
        injection h3 with h4 h5
        cases g2 with
        | none =>
          left
          rw [← h4]
          exact le_refl 1
        | some d =>
          cases hn : natOfDigits d with
          | zero =>
            right
            refine ⟨?_, g1, g3, d, rfl, hn⟩
            rw [← h4]
            exact hn
          | succ k =>
            left
            rw [← h4]
            show 1 ≤ natOfDigits d
            rw [hn]
            exact Nat.succ_le_succ (Nat.zero_le k)

/-- Witness for C6 (amended): the no-token line `550 vrn#` falls in the
`quantity ≥ 1` branch. -/
theorem parse_entry_quantity_cases_concrete :
    1 ≤ 1 ∨ ((1 : ℕ) = 0 ∧ ∃ g1 g3 t,
      matchEntry (pyStripL (String.data "550 vrn#")) = some (g1, some t, g3) ∧
      natOfDigits t = 0) :=
  parse_entry_quantity_cases "550 vrn#" _ 1 "vrn#" rfl

/-- Every all-whitespace string strips to the empty string. -/
lemma pyStripL_eq_nil_of_all_space {cs : List Char}
    (h : ∀ c ∈ cs, isSpace c = true) : pyStripL cs = [] := by
  unfold pyStripL
  have h1 : cs.dropWhile isSpace = [] := by
    rw [List.dropWhile_eq_nil_iff]
    exact fun a ha => h a ha
  rw [h1]
  rfl

/-- Claim C9: the sale-line parser is total (it is a Lean function; the
Python `try` guards the only fallible call, `float`): on an empty or
whitespace-only string it yields no value, and it yields a value only
for grammar-conforming lines — the stripped text matches the regex and
the revenue group is accepted by `float`. -/
theorem parse_entry_total_grammar :
    (∀ text : String, (∀ c ∈ text.data, isSpace c = true) → parse_entry text = none) ∧
    (∀ text : String, pyStripL text.data = [] → parse_entry text = none) ∧
    (∀ (text : String) e, parse_entry text = some e →
      ∃ g1 g2 g3, matchEntry (pyStripL text.data) = some (g1, g2, g3) ∧
        (pyFloatL g1).isSome) := by
  have hnil : ∀ text : String, pyStripL text.data = [] → parse_entry text = none := by
    intro text h
    simp only [parse_entry, h]
    simp
  refine ⟨fun text h => hnil text (pyStripL_eq_nil_of_all_space h), hnil, ?_⟩
  intro text e he
  simp only [parse_entry] at he
  by_cases h0 : pyStripL text.data = []
  · rw [if_pos h0] at he
    exact absurd he (by simp)
  · rw [if_neg h0] at he
    cases hm : matchEntry (pyStripL text.data) with
    | none =>
      rw [hm] at he
      exact absurd he (by simp)
    | some g =>
      obtain ⟨g1, g2, g3⟩ := g
      rw [hm] at he
      dsimp only at he
      cases hf : pyFloatL g1 with
      | none =>
        rw [hf] at he
        exact absurd he (by simp)
      | some rev =>
        exact ⟨g1, g2, g3, rfl, by rw [hf]; rfl⟩

/-- Witness for C9: whitespace-only and empty inputs yield no value. -/
theorem parse_entry_total_grammar_concrete :
    parse_entry "   " = none ∧ parse_entry "" = none :=
  ⟨parse_entry_total_grammar.1 "   " (by decide),
   parse_entry_total_grammar.2.1 "" rfl⟩

end ProfitBot
